import Mathlib

/-!
Verification development for the YTLinkerBot repository.

The pipeline under verification lives in two Python modules:
`youtube_extractor.py` (URL to video-id resolution via `urllib.parse.urlparse`,
HTTPS link extraction over free text, provider error mapping) and
`link_filter.py` (per-user keyword filter engine).  Strings are embedded as
`List Char`; machine behaviour of CPython string/URL helpers is reproduced
directly on that representation.
-/

/-- Strings of the embedded program are lists of characters. -/
abbrev Str := List Char

/-- Coerce a Lean string literal to the embedded representation. -/
def lstr (s : String) : Str := s.data

/-- Model of Python `str.lower()` restricted to the ASCII range used by the
repository (Lean `Char.toLower` lower-cases exactly ASCII letters). -/
def pyLower (s : Str) : Str := s.map Char.toLower

/-- The ASCII whitespace characters recognised by Python `str.strip()` and
the regex class `\s` (unicode space characters are outside the modelled
domain). -/
def isPySpace (c : Char) : Bool :=
  c = ' ' || c = '\t' || c = '\n' || c = '\r' || c = '\x0b' || c = '\x0c'

/-- Model of Python `str.strip()`: drop leading and trailing whitespace. -/
def pyStrip (s : Str) : Str :=
  ((s.dropWhile isPySpace).reverse.dropWhile isPySpace).reverse

/-- Model of the Python substring test `needle in hay`. -/
def isSubstr (needle : Str) : Str → Bool
  | [] => needle.isEmpty
  | c :: rest => needle.isPrefixOf (c :: rest) || isSubstr needle rest

/-- The tail of a list after its first element, empty on the empty list.
Used to drop a separator character after a split. -/
def tailAfter : Str → Str
  | [] => []
  | _ :: t => t

/-! ### `urllib.parse.urlparse`, restricted to what `extract_video_id` reads -/

/-- Characters allowed in a URL scheme by CPython `urlsplit`. -/
def isSchemeChar (c : Char) : Bool :=
  c.isAlphanum || c = '+' || c = '-' || c = '.'

/-- CPython `urlsplit` scheme handling: split at the first `:` provided the
text before it is a nonempty run of scheme characters starting with an ASCII
letter; the scheme is lower-cased.  Otherwise the URL is left whole. -/
def splitScheme (url : Str) : Str × Str :=
  match url.dropWhile (fun c => c != ':') with
  | [] => ([], url)
  | _ :: rest =>
    match url.takeWhile (fun c => c != ':') with
    | [] => ([], url)
    | c0 :: cs =>
      if c0.isAlpha && (c0 :: cs).all isSchemeChar then
        (pyLower (c0 :: cs), rest)
      else ([], url)

/-- CPython `urlsplit` netloc handling: when the remainder starts with `//`,
the netloc runs up to the first `/`, `?` or `#`. -/
def splitNetloc (url : Str) : Str × Str :=
  match url with
  | '/' :: '/' :: rest =>
    (rest.takeWhile (fun c => c != '/' && c != '?' && c != '#'),
     rest.dropWhile (fun c => c != '/' && c != '?' && c != '#'))
  | _ => ([], url)

/-- Split off the fragment at the first `#`. -/
def splitHash (u : Str) : Str × Str :=
  (u.takeWhile (fun c => c != '#'), tailAfter (u.dropWhile (fun c => c != '#')))

/-- Split off the query at the first `?`. -/
def splitQuery (u : Str) : Str × Str :=
  (u.takeWhile (fun c => c != '?'), tailAfter (u.dropWhile (fun c => c != '?')))

/-- Model of the Python membership test `d in s` for a character. -/
def hasChar (d : Char) : Str → Bool
  | [] => false
  | c :: rest => c == d || hasChar d rest

/-- CPython `urlparse._splitparams`: split the path at the first `;` occurring
in its final `/`-separated segment (or anywhere when the path has no `/`). -/
def splitParams (p : Str) : Str × Str :=
  if hasChar '/' p then
    let pre := (p.reverse.dropWhile (fun c => c != '/')).reverse
    let seg := (p.reverse.takeWhile (fun c => c != '/')).reverse
    if hasChar ';' seg then
      (pre ++ seg.takeWhile (fun c => c != ';'),
       tailAfter (seg.dropWhile (fun c => c != ';')))
    else (p, [])
  else if hasChar ';' p then
    (p.takeWhile (fun c => c != ';'), tailAfter (p.dropWhile (fun c => c != ';')))
  else (p, [])

/-- The fields of a CPython `ParseResult` read by the extractor. -/
structure ParseResult where
  scheme : Str
  netloc : Str
  path : Str
  params : Str
  query : Str
  fragment : Str
  deriving DecidableEq, Repr

/-- Model of `urllib.parse.urlparse` (scheme, then `//`-netloc, then fragment,
then query, then path params), faithful to the CPython split order. -/
def urlparse (url : Str) : ParseResult :=
  let sr := splitScheme url
  let nr := splitNetloc sr.2
  let fr := splitHash nr.2
  let qr := splitQuery fr.1
  let pp := splitParams qr.1
  ⟨sr.1, nr.1, pp.1, pp.2, qr.2, fr.2⟩

/-- CPython `ParseResult.hostname`: the netloc after the last `@`, before the
first `:`, lower-cased; `none` when empty. -/
def hostname (p : ParseResult) : Option Str :=
  let hostinfo := (p.netloc.reverse.takeWhile (fun c => c != '@')).reverse
  let host := hostinfo.takeWhile (fun c => c != ':')
  if host = [] then none else some (pyLower host)

/-! ### `urllib.parse.parse_qs` restricted to `.get('v', [None])[0]` -/

/-- Split a string on every occurrence of a separator character, Python
`str.split(sep)` semantics (empty pieces preserved). -/
def splitChar (sep : Char) : Str → List Str
  | [] => [[]]
  | c :: rest =>
    if c = sep then [] :: splitChar sep rest
    else
      match splitChar sep rest with
      | [] => [[c]]
      | h :: t => (c :: h) :: t

/-- Scan `&`-separated query pieces for the first `v=value` pair with a
nonempty value, as `parse_qs(query).get('v', [None])[0]` yields (pieces
without `=` and pairs with an empty value are dropped by `parse_qsl` with
`keep_blank_values=False`; percent-decoding is not modelled, no input in
scope contains escapes). -/
def qsFirstV : List Str → Option Str
  | [] => none
  | piece :: rest =>
    match piece.dropWhile (fun c => c != '=') with
    | [] => qsFirstV rest
    | _ :: value =>
      if piece.takeWhile (fun c => c != '=') = lstr "v" ∧ value ≠ [] then
        some value
      else qsFirstV rest

/-- Model of `parse_qs(query).get('v', [None])[0]` from the `/watch` branch. -/
def parse_qs_get_v (query : Str) : Option Str :=
  qsFirstV (splitChar '&' query)

/-! ### Python `str.split(sep)` with a multi-character separator -/

/-- Fuel-driven worker for `pySplit`; the fuel is always at least the length
of the scanned list, so the fuel-exhausted arm is never reached. -/
def pySplitAux (sep : Str) : Nat → Str → Str → List Str
  | 0, l, acc => [acc.reverse ++ l]
  | _ + 1, [], acc => [acc.reverse]
  | fuel + 1, c :: rest, acc =>
    if sep.isPrefixOf (c :: rest) then
      acc.reverse :: pySplitAux sep fuel (List.drop (sep.length - 1) rest) []
    else pySplitAux sep fuel rest (c :: acc)

/-- Model of Python `str.split(sep)` for a nonempty separator: leftmost
non-overlapping occurrences. -/
def pySplit (sep l : Str) : List Str := pySplitAux sep l.length l []

/-! ### `YouTubeExtractor.extract_video_id` -/

/-- The youtube hostnames recognised by the first branch of
`extract_video_id`. -/
def ytHosts : List Str :=
  [lstr "www.youtube.com", lstr "youtube.com", lstr "m.youtube.com"]

/-- Shallow embedding of `YouTubeExtractor.extract_video_id`
(src/youtube_extractor.py lines 21-54): branch on `urlparse` hostname, then
on the path; `/watch` reads `v` from the query, `/embed/` and `/v/` take the
last piece of `path.split(sep)` up to a `?`, `youtu.be` takes `path[1:]` up
to a `?`; every other shape yields `none` (the Python `None`). -/
def extract_video_id (url : Str) : Option Str :=
  let p := urlparse url
  match hostname p with
  | some h =>
    if h ∈ ytHosts then
      if p.path = lstr "/watch" then parse_qs_get_v p.query
      else if (lstr "/embed/").isPrefixOf p.path then
        some (((pySplit (lstr "/embed/") p.path).getLastD []).takeWhile (fun c => c != '?'))
      else if (lstr "/v/").isPrefixOf p.path then
        some (((pySplit (lstr "/v/") p.path).getLastD []).takeWhile (fun c => c != '?'))
      else none
    else if h = lstr "youtu.be" then
      some ((p.path.drop 1).takeWhile (fun c => c != '?'))
    else none
  | none => none

/-! ### `YouTubeExtractor.extract_https_links` -/

/-- The characters that terminate the body of a `https://[^\s<>"]+` match:
the `\s` class plus `<`, `>` and `"`. -/
def isLinkDelim (c : Char) : Bool :=
  isPySpace c || c = '<' || c = '>' || c = '"'

/-- The literal scheme prefix of the `https_pattern` regex. -/
def httpsLit : Str := lstr "https://"

/-- Try to match `https://[^\s<>"]+` (case-insensitive on the literal part,
as `re.IGNORECASE` makes it) at the head of the text: on success return the
matched text verbatim and the remainder of the input. -/
def matchHttpsAt (l : Str) : Option (Str × Str) :=
  let pre := l.take 8
  let rest := l.drop 8
  let body := rest.takeWhile (fun c => !isLinkDelim c)
  if pyLower pre = httpsLit ∧ body ≠ [] then
    some (pre ++ body, rest.drop body.length)
  else none

/-- Fuel-driven scan of `re.findall` over the text: leftmost non-overlapping
matches, the scan resuming after each match.  The fuel is always at least
the length of the text, so it never runs out. -/
def findAllHttpsAux : Nat → Str → List Str
  | 0, _ => []
  | _ + 1, [] => []
  | fuel + 1, c :: rest =>
    match matchHttpsAt (c :: rest) with
    | some (link, remaining) => link :: findAllHttpsAux fuel remaining
    | none => findAllHttpsAux fuel rest

/-- Model of `self.https_pattern.findall(text)`. -/
def findall_https (text : Str) : List Str := findAllHttpsAux text.length text

/-- The trailing punctuation class `[.,;:!?)}\]]` stripped after each match. -/
def isTrailingPunct (c : Char) : Bool :=
  c = '.' || c = ',' || c = ';' || c = ':' || c = '!' || c = '?' ||
  c = ')' || c = '}' || c = ']'

/-- Model of `re.sub(r'[.,;:!?)}\]]+$', '', link)`: remove the maximal
trailing run of the punctuation class (links never contain a newline, so the
`$` anchor is plain end-of-string here). -/
def stripTrailingPunct (l : Str) : Str :=
  (l.reverse.dropWhile isTrailingPunct).reverse

/-- The cleanup loop of `extract_https_links` (src/youtube_extractor.py
lines 121-129): strip trailing punctuation, then append each nonempty link
not already collected; `acc` is the `cleaned_links` accumulator. -/
def cleanup_links : List Str → List Str → List Str
  | [], acc => acc
  | link :: rest, acc =>
    let l := stripTrailingPunct link
    if l ≠ [] ∧ l ∉ acc then cleanup_links rest (acc ++ [l])
    else cleanup_links rest acc

/-- Shallow embedding of `YouTubeExtractor.extract_https_links`
(src/youtube_extractor.py lines 105-129). -/
def extract_https_links (text : Str) : List Str :=
  if text = [] then []
  else cleanup_links (findall_https text) []

/-- The index of the first occurrence of `x` in a list (the length of the
list when absent); used to state first-appearance order. -/
def firstIdx (x : Str) : List Str → Nat
  | [] => 0
  | c :: rest => if c = x then 0 else firstIdx x rest + 1

/-! ### `YouTubeExtractor.get_video_description` -/

/-- The `snippet` fields requested from the provider; each may be absent,
the code reading them with `.get` defaults. -/
structure Snippet where
  title : Option Str
  description : Option Str
  deriving DecidableEq, Repr

/-- The provider outcomes distinguished by `get_video_description`:
a successful response carrying an item list, an `HttpError` carrying the
HTTP status and the first `error_details` reason when present, or any other
exception carrying its text. -/
inductive ApiOutcome where
  | success (items : List Snippet)
  | httpError (status : Nat) (reason : Option Str)
  | failure (detail : Str)
  deriving DecidableEq, Repr

/-- Shallow embedding of `YouTubeExtractor.get_video_description`
(src/youtube_extractor.py lines 56-103): the `(success, text)` pair returned
for each provider outcome. -/
def get_video_description : ApiOutcome → Bool × Str
  | .success items =>
    match items with
    | [] =>
      (false, lstr "Video not found. The video might be private, deleted, or the URL is invalid.")
    | item :: _ => (true, item.description.getD [])
  | .httpError status reasonOpt =>
    let reason := reasonOpt.getD (lstr "Unknown error")
    if status = 403 then
      if isSubstr (lstr "quotaExceeded") reason then
        (false, lstr "YouTube API quota exceeded. Please try again later.")
      else
        (false, lstr "Access forbidden. The video might be private or restricted.")
    else if status = 404 then
      (false, lstr "Video not found. Please check the URL and try again.")
    else (false, lstr "YouTube API error: " ++ reason)
  | .failure detail => (false, lstr "An unexpected error occurred: " ++ detail)

/-! ### `LinkFilter` -/

/-- A lookup in the `user_filters` dict, modelled as an association list. -/
def dictGet : List (Int × List Str) → Int → Option (List Str)
  | [], _ => none
  | (k', v) :: rest, k => if k' = k then some v else dictGet rest k

/-- A dict assignment `d[k] = v`: replace the binding in place or append. -/
def dictSet : List (Int × List Str) → Int → List Str → List (Int × List Str)
  | [], k, v => [(k, v)]
  | (k', v') :: rest, k, v =>
    if k' = k then (k, v) :: rest else (k', v') :: dictSet rest k v

/-- The state of a `LinkFilter` instance.  `default_words` models the
module constant `config.DEFAULT_FILTER_WORDS` (its value is configuration,
not part of src/; it is kept abstract as a field no operation writes). -/
structure LinkFilter where
  default_words : List Str
  user_filters : List (Int × List Str)
  deriving DecidableEq, Repr

/-- Shallow embedding of `LinkFilter.get_user_filters` (src/link_filter.py
lines 15-25): the stored list for the user, else a fresh copy of the
defaults (copying is the identity under value semantics). -/
def get_user_filters (s : LinkFilter) (u : Int) : List Str :=
  (dictGet s.user_filters u).getD s.default_words

/-- Shallow embedding of `LinkFilter.set_user_filters` (lines 27-36):
store `[w.lower().strip() for w in words if w.strip()]`. -/
def set_user_filters (s : LinkFilter) (u : Int) (words : List Str) : LinkFilter :=
  let new := (words.filter (fun w => pyStrip w != [])).map (fun w => pyStrip (pyLower w))
  { s with user_filters := dictSet s.user_filters u new }

/-- The normalisation `word.lower().strip()` applied by add/remove. -/
def normalizeWord (w : Str) : Str := pyStrip (pyLower w)

/-- Shallow embedding of `LinkFilter.add_filter_word` (lines 38-50): append
the normalised word to the current (stored or default) list when it is
nonempty and not yet present, and store the result; otherwise no state
change. -/
def add_filter_word (s : LinkFilter) (u : Int) (word : Str) : LinkFilter :=
  let current := get_user_filters s u
  let w := normalizeWord word
  if w ≠ [] ∧ w ∉ current then
    { s with user_filters := dictSet s.user_filters u (current ++ [w]) }
  else s

/-- Shallow embedding of `LinkFilter.remove_filter_word` (lines 52-69):
when the normalised word is in the current list, remove its first occurrence
(`list.remove`), store the result and return `true`; else return `false`
with the state untouched. -/
def remove_filter_word (s : LinkFilter) (u : Int) (word : Str) : LinkFilter × Bool :=
  let current := get_user_filters s u
  let w := normalizeWord word
  if w ∈ current then
    ({ s with user_filters := dictSet s.user_filters u (current.erase w) }, true)
  else (s, false)

/-- Shallow embedding of `LinkFilter.clear_user_filters` (lines 71-78). -/
def clear_user_filters (s : LinkFilter) (u : Int) : LinkFilter :=
  { s with user_filters := dictSet s.user_filters u [] }

/-- The per-link exclusion test of `filter_links`: some filter word is a
substring of the lower-cased link. -/
def linkExcluded (filter_words : List Str) (link : Str) : Bool :=
  filter_words.any (fun w => isSubstr w (pyLower link))

/-- The partition loop of `filter_links`: count excluded links, keep the
rest in order. -/
def filterLinksLoop (filter_words : List Str) : List Str → List Str × Nat
  | [] => ([], 0)
  | link :: rest =>
    let r := filterLinksLoop filter_words rest
    if linkExcluded filter_words link then (r.1, r.2 + 1) else (link :: r.1, r.2)

/-- Shallow embedding of `LinkFilter.filter_links` (src/link_filter.py
lines 80-116), including the early returns for an empty link list and an
empty filter list. -/
def filter_links (s : LinkFilter) (u : Int) (links : List Str) : List Str × Nat :=
  if links = [] then ([], 0)
  else
    let filter_words := get_user_filters s u
    if filter_words = [] then (links, 0)
    else filterLinksLoop filter_words links

/-- A command-surface operation on the filter engine, as dispatched by the
bot handlers. -/
inductive FilterOp where
  | add (w : Str)
  | remove (w : Str)
  | set (ws : List Str)
  | clear

/-- Apply one filter operation on behalf of a user. -/
def applyOp (s : LinkFilter) (u : Int) : FilterOp → LinkFilter
  | .add w => add_filter_word s u w
  | .remove w => (remove_filter_word s u w).1
  | .set ws => set_user_filters s u ws
  | .clear => clear_user_filters s u

/-- Apply a sequence of (user, operation) commands in order. -/
def applyOps (s : LinkFilter) : List (Int × FilterOp) → LinkFilter
  | [] => s
  | (u, op) :: rest => applyOps (applyOp s u op) rest

/-! ### The call-site pre-filtering pattern of bot.py -/

/-- Strip a literal pattern case-insensitively from the head of the text,
returning the remainder on success. -/
def stripCI (pat : Str) (l : Str) : Option Str :=
  if pyLower (l.take pat.length) = pat then some (l.drop pat.length) else none

/-- A word character of the call-site regex class `[\w-]` (ASCII domain). -/
def isWordChar (c : Char) : Bool := c.isAlphanum || c = '_' || c = '-'

/-- The candidate remainders after an optional case-insensitive literal. -/
def afterOpt (pat : Str) (l : Str) : List Str :=
  match stripCI pat l with
  | some r => [l, r]
  | none => [l]

/-- The required core of `youtube_url_pattern`: one of the four recognised
stems followed by at least one `[\w-]` character. -/
def ytCoreAt (l : Str) : Bool :=
  [lstr "youtube.com/watch?v=", lstr "youtube.com/embed/",
   lstr "youtube.com/v/", lstr "youtu.be/"].any fun stem =>
    match stripCI stem l with
    | some (c :: _) => isWordChar c
    | _ => false

/-- Does `youtube_url_pattern` (src/bot.py lines 27-31) match at the head of
the text: optional `https://` or `http://`, optional `www.`, then a
recognised stem and a word character. -/
def ytMatchAt (l : Str) : Bool :=
  (afterOpt (lstr "https://") l ++ afterOpt (lstr "http://") l).any fun l2 =>
    (afterOpt (lstr "www.") l2).any fun l3 => ytCoreAt l3

/-- Model of `youtube_url_pattern.search`: the pattern matches at some
position of the text. -/
def ytSearch : Str → Bool
  | [] => false
  | c :: rest => ytMatchAt (c :: rest) || ytSearch rest


/-! ## Supporting lemmas -/

theorem takeWhile_all {p : Char → Bool} {l : Str} (h : ∀ c ∈ l, p c = true) :
    l.takeWhile p = l := by
  induction l with
  | nil => rfl
  | cons c rest ih =>
    have hc : p c = true := h c (by simp)
    simp [List.takeWhile_cons, hc, ih (fun x hx => h x (by simp [hx]))]

theorem dropWhile_all {p : Char → Bool} {l : Str} (h : ∀ c ∈ l, p c = true) :
    l.dropWhile p = [] := by
  induction l with
  | nil => rfl
  | cons c rest ih =>
    have hc : p c = true := h c (by simp)
    simp [List.dropWhile_cons, hc, ih (fun x hx => h x (by simp [hx]))]

theorem takeWhile_append_all {p : Char → Bool} {a : Str} (b : Str)
    (h : ∀ c ∈ a, p c = true) : (a ++ b).takeWhile p = a ++ b.takeWhile p := by
  induction a with
  | nil => rfl
  | cons c rest ih =>
    have hc : p c = true := h c (by simp)
    simp [List.takeWhile_cons, hc, ih (fun x hx => h x (by simp [hx]))]

theorem dropWhile_append_all {p : Char → Bool} {a : Str} (b : Str)
    (h : ∀ c ∈ a, p c = true) : (a ++ b).dropWhile p = b.dropWhile p := by
  induction a with
  | nil => rfl
  | cons c rest ih =>
    have hc : p c = true := h c (by simp)
    simp [List.dropWhile_cons, hc, ih (fun x hx => h x (by simp [hx]))]

theorem dictGet_dictSet_self (d : List (Int × List Str)) (k : Int) (v : List Str) :
    dictGet (dictSet d k v) k = some v := by
  induction d with
  | nil => simp [dictSet, dictGet]
  | cons p rest ih =>
    obtain ⟨k', v'⟩ := p
    by_cases h : k' = k <;> simp [dictSet, dictGet, h, ih]

theorem dictGet_dictSet_ne (d : List (Int × List Str)) {k k' : Int} (v : List Str)
    (h : k' ≠ k) : dictGet (dictSet d k v) k' = dictGet d k' := by
  have h' : ¬ k = k' := fun hh => h hh.symm
  induction d with
  | nil => simp [dictSet, dictGet, h']
  | cons p rest ih =>
    obtain ⟨k'', v''⟩ := p
    by_cases hk : k'' = k
    · subst hk
      simp [dictSet, dictGet, h']
    · simp only [dictSet, if_neg hk, dictGet]
      split <;> simp [ih]

theorem filterLinksLoop_eq (fw : List Str) (links : List Str) :
    filterLinksLoop fw links =
      (links.filter (fun l => !linkExcluded fw l),
       (links.filter (fun l => linkExcluded fw l)).length) := by
  induction links with
  | nil => rfl
  | cons link rest ih =>
    cases h : linkExcluded fw link <;>
      simp [filterLinksLoop, ih, List.filter_cons, h]

theorem length_filter_not_add (p : Str → Bool) (l : List Str) :
    (l.filter (fun x => !p x)).length + (l.filter p).length = l.length := by
  induction l with
  | nil => rfl
  | cons x rest ih =>
    cases h : p x <;> simp [List.filter_cons, h] <;> omega

theorem cleanup_links_sublist (ls : List Str) (acc : List Str) :
    ∃ extra, cleanup_links ls acc = acc ++ extra ∧
      extra.Sublist (ls.map stripTrailingPunct) := by
  induction ls generalizing acc with
  | nil => exact ⟨[], by simp [cleanup_links], List.nil_sublist _⟩
  | cons link rest ih =>
    by_cases h : stripTrailingPunct link ≠ [] ∧ stripTrailingPunct link ∉ acc
    · obtain ⟨extra, he, hs⟩ := ih (acc ++ [stripTrailingPunct link])
      refine ⟨stripTrailingPunct link :: extra, ?_, ?_⟩
      · simp only [cleanup_links, if_pos h, he, List.append_assoc, List.singleton_append]
      · simpa using hs.cons₂ (stripTrailingPunct link)
    · obtain ⟨extra, he, hs⟩ := ih acc
      exact ⟨extra, by simp only [cleanup_links, if_neg h, he],
        by simpa using hs.cons (stripTrailingPunct link)⟩

theorem cleanup_links_nodup (ls : List Str) (acc : List Str) (h : acc.Nodup) :
    (cleanup_links ls acc).Nodup := by
  induction ls generalizing acc with
  | nil => simpa [cleanup_links]
  | cons link rest ih =>
    by_cases hc : stripTrailingPunct link ≠ [] ∧ stripTrailingPunct link ∉ acc
    · rw [cleanup_links, if_pos hc]
      exact ih _ (by simp [List.nodup_append, h, hc.2])
    · rw [cleanup_links, if_neg hc]
      exact ih _ h

theorem cleanup_links_ne_nil (ls : List Str) (acc : List Str)
    (h : ∀ a ∈ acc, a ≠ []) : ∀ l ∈ cleanup_links ls acc, l ≠ [] := by
  induction ls generalizing acc with
  | nil => simpa [cleanup_links]
  | cons link rest ih =>
    by_cases hc : stripTrailingPunct link ≠ [] ∧ stripTrailingPunct link ∉ acc
    · rw [cleanup_links, if_pos hc]
      refine ih _ (fun a ha => ?_)
      rcases List.mem_append.1 ha with h1 | h1
      · exact h a h1
      · simpa using List.mem_singleton.1 h1 ▸ hc.1
    · rw [cleanup_links, if_neg hc]
      exact ih _ h

theorem cleanup_links_complete (ls : List Str) (acc : List Str) :
    ∀ l, l ≠ [] → (l ∈ acc ∨ l ∈ ls.map stripTrailingPunct) →
      l ∈ cleanup_links ls acc := by
  induction ls generalizing acc with
  | nil =>
    intro l _ hm
    simpa [cleanup_links] using hm.resolve_right (by simp)
  | cons link rest ih =>
    intro l hne hm
    by_cases hc : stripTrailingPunct link ≠ [] ∧ stripTrailingPunct link ∉ acc
    · rw [cleanup_links, if_pos hc]
      refine ih _ l hne ?_
      rcases hm with h1 | h1
      · exact Or.inl (by simp [h1])
      · rcases (by simpa using h1 : l = stripTrailingPunct link ∨
          l ∈ rest.map stripTrailingPunct) with h2 | h2
        · exact Or.inl (by simp [h2])
        · exact Or.inr h2
    · rw [cleanup_links, if_neg hc]
      refine ih _ l hne ?_
      rcases hm with h1 | h1
      · exact Or.inl h1
      · rcases (by simpa using h1 : l = stripTrailingPunct link ∨
          l ∈ rest.map stripTrailingPunct) with h2 | h2
        · rcases not_and_or.1 hc with h3 | h3
          · exact absurd (h2 ▸ hne) h3
          · exact Or.inl (h2 ▸ not_not.1 h3)
        · exact Or.inr h2

theorem pairwise_mono_mem {R S : Str → Str → Prop} :
    ∀ {l : List Str}, l.Pairwise R → (∀ x ∈ l, ∀ y ∈ l, R x y → S x y) →
      l.Pairwise S := by
  intro l hp
  induction hp with
  | nil => intro _; exact List.Pairwise.nil
  | @cons a l' hrel hrest ih =>
    intro hi
    refine List.Pairwise.cons (fun y hy => hi a (by simp) y (by simp [hy]) (hrel y hy)) ?_
    exact ih (fun x hx y hy hr => hi x (by simp [hx]) y (by simp [hy]) hr)

theorem firstIdx_cons_self (x : Str) (ms : List Str) : firstIdx x (x :: ms) = 0 := by
  simp [firstIdx]

theorem firstIdx_cons_ne {x m : Str} (h : ¬ m = x) (ms : List Str) :
    firstIdx x (m :: ms) = firstIdx x ms + 1 := by
  simp [firstIdx, h]

theorem cleanup_links_order (ls : List Str) : ∀ acc : List Str,
    ∃ extra, cleanup_links ls acc = acc ++ extra ∧
      (∀ x ∈ extra, x ∉ acc ∧ x ≠ []) ∧
      extra.Pairwise (fun x y =>
        firstIdx x (ls.map stripTrailingPunct) < firstIdx y (ls.map stripTrailingPunct)) := by
  induction ls with
  | nil =>
    intro acc
    exact ⟨[], by simp [cleanup_links], by simp, List.Pairwise.nil⟩
  | cons link rest ih =>
    intro acc
    by_cases hc : stripTrailingPunct link ≠ [] ∧ stripTrailingPunct link ∉ acc
    · obtain ⟨extra, he, hmem, hpw⟩ := ih (acc ++ [stripTrailingPunct link])
      refine ⟨stripTrailingPunct link :: extra, ?_, ?_, ?_⟩
      · rw [cleanup_links, if_pos hc, he]
        simp
      · intro x hx
        rcases List.mem_cons.1 hx with rfl | hx'
        · exact ⟨hc.2, hc.1⟩
        · have hxs := hmem x hx'
          exact ⟨fun hxa => hxs.1 (by simp [hxa]), hxs.2⟩
      · rw [List.map_cons]
        refine List.Pairwise.cons ?_ ?_
        · intro y hy
          have hym : ¬ (stripTrailingPunct link = y) := by
            intro hh
            exact (hmem y hy).1 (by simp [hh])
          rw [firstIdx_cons_self, firstIdx_cons_ne hym]
          omega
        · refine pairwise_mono_mem hpw ?_
          intro x hx y hy hr
          have hxm : ¬ (stripTrailingPunct link = x) := fun hh => (hmem x hx).1 (by simp [hh])
          have hym : ¬ (stripTrailingPunct link = y) := fun hh => (hmem y hy).1 (by simp [hh])
          rw [firstIdx_cons_ne hxm, firstIdx_cons_ne hym]
          omega
    · obtain ⟨extra, he, hmem, hpw⟩ := ih acc
      have hm : stripTrailingPunct link = [] ∨ stripTrailingPunct link ∈ acc := by
        rcases not_and_or.1 hc with h3 | h3
        · exact Or.inl (not_not.1 h3)
        · exact Or.inr (not_not.1 h3)
      refine ⟨extra, ?_, hmem, ?_⟩
      · rw [cleanup_links, if_neg hc, he]
      · rw [List.map_cons]
        refine pairwise_mono_mem hpw ?_
        intro x hx y hy hr
        have hxs := hmem x hx
        have hys := hmem y hy
        have hxm : ¬ (stripTrailingPunct link = x) := by
          intro hh
          rcases hm with h4 | h4
          · exact hxs.2 (hh ▸ h4)
          · exact hxs.1 (hh ▸ h4)
        have hym : ¬ (stripTrailingPunct link = y) := by
          intro hh
          rcases hm with h4 | h4
          · exact hys.2 (hh ▸ h4)
          · exact hys.1 (hh ▸ h4)
        rw [firstIdx_cons_ne hxm, firstIdx_cons_ne hym]
        omega

/-! ## Claim theorems -/

/-- Claim C1: for every user and link list, `filter_links` keeps exactly the
links whose lower-cased text contains no keyword of the user filter set
(order preserved, as the filtered list), counts the excluded ones, and the
kept length plus the excluded count equals the input length. -/
theorem C1_filter_links_partition (s : LinkFilter) (u : Int) (links : List Str) :
    filter_links s u links =
      (links.filter (fun l => !linkExcluded (get_user_filters s u) l),
       (links.filter (fun l => linkExcluded (get_user_filters s u) l)).length) ∧
    (filter_links s u links).1.length + (filter_links s u links).2 = links.length := by
  have key : filter_links s u links =
      (links.filter (fun l => !linkExcluded (get_user_filters s u) l),
       (links.filter (fun l => linkExcluded (get_user_filters s u) l)).length) := by
    by_cases hl : links = []
    · simp [filter_links, hl]
    · by_cases hf : get_user_filters s u = []
      · simp [filter_links, hl, hf, linkExcluded]
      · simp only [filter_links, if_neg hl, if_neg hf]
        exact filterLinksLoop_eq _ _
  refine ⟨key, ?_⟩
  rw [key]
  exact length_filter_not_add _ _

/-- Claim C3: on the spec example, `extract_https_links` matches both
`https://` substrings up to whitespace and strips the stacked trailing
punctuation `.` and `),`. -/
theorem C3_extract_links_example :
    extract_https_links (lstr "Visit https://a.com/x. Also https://b.com/y),") =
      [lstr "https://a.com/x", lstr "https://b.com/y"] := by decide

/-- Claim C4: the output of `extract_https_links` never holds duplicates or
empty strings, is a subsequence of the cleaned match list, is strictly
increasing in first-occurrence index over that list (so the distinct cleaned
links are listed exactly in order of first appearance in the source text),
contains every nonempty cleaned match, deduplicates the spec example, and
keeps first-appearance order on a repeated-link text. -/
theorem C4_extract_links_invariants :
    (∀ text : Str,
      (extract_https_links text).Nodup ∧
      (∀ l ∈ extract_https_links text, l ≠ []) ∧
      (extract_https_links text).Sublist
        ((findall_https text).map stripTrailingPunct) ∧
      (extract_https_links text).Pairwise (fun x y =>
        firstIdx x ((findall_https text).map stripTrailingPunct) <
        firstIdx y ((findall_https text).map stripTrailingPunct)) ∧
      (∀ l ∈ (findall_https text).map stripTrailingPunct, l ≠ [] →
        l ∈ extract_https_links text)) ∧
    extract_https_links (lstr "https://a.com https://a.com") = [lstr "https://a.com"] ∧
    extract_https_links (lstr "Visit https://b.com then https://a.com then https://b.com") =
      [lstr "https://b.com", lstr "https://a.com"] := by
  refine ⟨fun text => ?_, by decide, by decide⟩
  by_cases ht : text = []
  · subst ht
    have h0 : extract_https_links [] = [] := rfl
    refine ⟨by rw [h0]; exact List.nodup_nil, by rw [h0]; simp,
      by rw [h0]; exact List.nil_sublist _, by rw [h0]; exact List.Pairwise.nil, ?_⟩
    intro l hl
    simp [findall_https, findAllHttpsAux] at hl
  · have hx : extract_https_links text = cleanup_links (findall_https text) [] := by
      rw [extract_https_links, if_neg ht]
    obtain ⟨extra, he, hs⟩ := cleanup_links_sublist (findall_https text) []
    obtain ⟨extra2, he2, hmem2, hpw2⟩ := cleanup_links_order (findall_https text) []
    rw [hx]
    refine ⟨cleanup_links_nodup _ _ (by simp),
            cleanup_links_ne_nil _ _ (by simp), ?_, ?_, ?_⟩
    · rw [he]; simpa using hs
    · rw [he2]; simpa using hpw2
    · intro l hl hne
      exact cleanup_links_complete _ _ l hne (Or.inr hl)

/-- Claim C7: `get_video_description` maps each provider outcome to its
message: empty item list to not-found, HTTP 403 with a quota reason to
quota-exceeded, other 403 to forbidden, 404 to not-found, any other provider
status to a provider-error message carrying the reason, and a successful
item to its description text. -/
theorem C7_get_video_description_cases :
    (get_video_description (.success []) =
      (false, lstr "Video not found. The video might be private, deleted, or the URL is invalid.")) ∧
    (∀ (item : Snippet) (rest : List Snippet),
      get_video_description (.success (item :: rest)) = (true, item.description.getD [])) ∧
    (∀ r : Option Str,
      isSubstr (lstr "quotaExceeded") (r.getD (lstr "Unknown error")) = true →
      get_video_description (.httpError 403 r) =
        (false, lstr "YouTube API quota exceeded. Please try again later.")) ∧
    (∀ r : Option Str,
      isSubstr (lstr "quotaExceeded") (r.getD (lstr "Unknown error")) = false →
      get_video_description (.httpError 403 r) =
        (false, lstr "Access forbidden. The video might be private or restricted.")) ∧
    (∀ r : Option Str, get_video_description (.httpError 404 r) =
      (false, lstr "Video not found. Please check the URL and try again.")) ∧
    (∀ (st : Nat) (r : Option Str), st ≠ 403 → st ≠ 404 →
      get_video_description (.httpError st r) =
        (false, lstr "YouTube API error: " ++ r.getD (lstr "Unknown error"))) := by
  refine ⟨rfl, fun item rest => rfl, fun r h => ?_, fun r h => ?_,
    fun r => by simp [get_video_description], fun st r h3 h4 => ?_⟩
  · simp [get_video_description, h]
  · simp [get_video_description, h]
  · simp [get_video_description, h3, h4]

/-- Witness for C7: a 403 outcome whose reason is `quotaExceeded` yields the
quota-exceeded message. -/
theorem C7_witness :
    get_video_description (.httpError 403 (some (lstr "quotaExceeded"))) =
      (false, lstr "YouTube API quota exceeded. Please try again later.") :=
  C7_get_video_description_cases.2.2.1 (some (lstr "quotaExceeded")) (by decide)

/-- Claim C8: `remove_filter_word` returns true exactly when the normalised
word is in the current filter list of the user; on false the whole state is
untouched, and on true the stored list for the user is the old one with the
first occurrence of the word removed. -/
theorem C8_remove_filter_word (s : LinkFilter) (u : Int) (word : Str) :
    ((remove_filter_word s u word).2 = true ↔
      normalizeWord word ∈ get_user_filters s u) ∧
    (normalizeWord word ∉ get_user_filters s u →
      remove_filter_word s u word = (s, false)) ∧
    (normalizeWord word ∈ get_user_filters s u →
      get_user_filters (remove_filter_word s u word).1 u =
        (get_user_filters s u).erase (normalizeWord word)) := by
  by_cases h : normalizeWord word ∈ get_user_filters s u
  · refine ⟨by simp [remove_filter_word, h], fun hn => absurd h hn, fun _ => ?_⟩
    have hr : remove_filter_word s u word =
        ({ s with user_filters := dictSet s.user_filters u ((get_user_filters s u).erase (normalizeWord word)) }, true) := by
      simp [remove_filter_word, h]
    rw [hr]
    simp [get_user_filters, dictGet_dictSet_self]
  · exact ⟨by simp [remove_filter_word, h], fun _ => by simp [remove_filter_word, h],
      fun hc => absurd hc h⟩

/-- Witness for C8: removing an absent word from a fresh state returns false
and leaves the state unchanged. -/
theorem C8_witness :
    remove_filter_word ⟨[], []⟩ 0 (lstr "x") = (⟨[], []⟩, false) :=
  (C8_remove_filter_word ⟨[], []⟩ 0 (lstr "x")).2.1 (by decide)

theorem applyOp_default_words (s : LinkFilter) (u : Int) (op : FilterOp) :
    (applyOp s u op).default_words = s.default_words := by
  cases op with
  | add w =>
    simp only [applyOp, add_filter_word]
    split <;> rfl
  | remove w =>
    simp only [applyOp, remove_filter_word]
    split <;> rfl
  | set ws => rfl
  | clear => rfl

theorem applyOp_frame (s : LinkFilter) (u : Int) (op : FilterOp) {u' : Int}
    (h : u' ≠ u) :
    dictGet (applyOp s u op).user_filters u' = dictGet s.user_filters u' := by
  cases op with
  | add w =>
    simp only [applyOp, add_filter_word]
    split
    · exact dictGet_dictSet_ne _ _ h
    · rfl
  | remove w =>
    simp only [applyOp, remove_filter_word]
    split
    · exact dictGet_dictSet_ne _ _ h
    · rfl
  | set ws => exact dictGet_dictSet_ne _ _ h
  | clear => exact dictGet_dictSet_ne _ _ h

/-- Claim C9: `get_user_filters` of an unconfigured user yields the shared
default list, and no sequence of filter operations by other users ever
changes either the default list or the filters of that user (the observable
content of the defensive copy in `get_user_filters`). -/
theorem C9_default_isolation (ops : List (Int × FilterOp)) (s : LinkFilter)
    (u : Int) (h : ∀ p ∈ ops, p.1 ≠ u) :
    (applyOps s ops).default_words = s.default_words ∧
    get_user_filters (applyOps s ops) u = get_user_filters s u ∧
    (dictGet s.user_filters u = none →
      get_user_filters (applyOps s ops) u = s.default_words) := by
  have main : (applyOps s ops).default_words = s.default_words ∧
      dictGet (applyOps s ops).user_filters u = dictGet s.user_filters u := by
    induction ops generalizing s with
    | nil => exact ⟨rfl, rfl⟩
    | cons p rest ih =>
      obtain ⟨u', op⟩ := p
      have hu : u ≠ u' := fun hh => (h (u', op) (by simp)) hh.symm
      obtain ⟨h1, h2⟩ := ih (applyOp s u' op) (fun q hq => h q (by simp [hq]))
      refine ⟨h1.trans (applyOp_default_words s u' op), ?_⟩
      exact h2.trans (applyOp_frame s u' op hu)
  have hget : get_user_filters (applyOps s ops) u = get_user_filters s u := by
    rw [get_user_filters, get_user_filters, main.1, main.2]
  exact ⟨main.1, hget, fun hn => by rw [hget, get_user_filters, hn]; rfl⟩

/-- Witness for C9: with default list `["t.me"]` and operations by users 1
and 2, user 0 still sees the untouched defaults. -/
theorem C9_witness :
    (applyOps ⟨[lstr "t.me"], []⟩ [(1, .clear), (2, .add (lstr "x"))]).default_words = [lstr "t.me"] ∧
    get_user_filters (applyOps ⟨[lstr "t.me"], []⟩ [(1, .clear), (2, .add (lstr "x"))]) 0 = [lstr "t.me"] := by
  have h := C9_default_isolation [(1, .clear), (2, .add (lstr "x"))] ⟨[lstr "t.me"], []⟩ 0
    (by intro p hp; rcases List.mem_cons.1 hp with h1 | h1; · simp [h1]
        rcases List.mem_cons.1 h1 with h2 | h2 <;> simp_all)
  exact ⟨h.1, h.2.2 rfl⟩

/-- Claim C10: for a user without a stored entry, the first mutating call
materialises a private copy of the defaults: `add_filter_word` stores the
default list with the normalised word appended (state unchanged when the
word is already a default), and `remove_filter_word` of a default word
returns true and stores the default list minus that word. -/
theorem C10_default_materialization (s : LinkFilter) (u : Int) (word : Str)
    (h : dictGet s.user_filters u = none) :
    ((normalizeWord word ≠ [] ∧ normalizeWord word ∉ s.default_words) →
      dictGet (add_filter_word s u word).user_filters u =
        some (s.default_words ++ [normalizeWord word])) ∧
    (normalizeWord word ∈ s.default_words → add_filter_word s u word = s) ∧
    (normalizeWord word ∈ s.default_words →
      (remove_filter_word s u word).2 = true ∧
      dictGet (remove_filter_word s u word).1.user_filters u =
        some (s.default_words.erase (normalizeWord word))) := by
  have hcur : get_user_filters s u = s.default_words := by
    rw [get_user_filters, h]; rfl
  refine ⟨fun hw => ?_, fun hin => ?_, fun hin => ?_⟩
  · have : add_filter_word s u word =
        { s with user_filters := dictSet s.user_filters u (s.default_words ++ [normalizeWord word]) } := by
      simp [add_filter_word, hcur, hw.1, hw.2]
    rw [this]
    exact dictGet_dictSet_self _ _ _
  · simp [add_filter_word, hcur, hin]
  · have : remove_filter_word s u word =
        ({ s with user_filters := dictSet s.user_filters u (s.default_words.erase (normalizeWord word)) }, true) := by
      simp [remove_filter_word, hcur, hin]
    rw [this]
    exact ⟨rfl, dictGet_dictSet_self _ _ _⟩

/-- Witness for C10: a user with no entry who removes the default word
`t.me` gets true back and a stored private copy of the defaults minus it. -/
theorem C10_witness :
    (remove_filter_word ⟨[lstr "t.me"], []⟩ 5 (lstr "t.me")).2 = true ∧
    dictGet (remove_filter_word ⟨[lstr "t.me"], []⟩ 5 (lstr "t.me")).1.user_filters 5 =
      some (([lstr "t.me"] : List Str).erase (normalizeWord (lstr "t.me"))) :=
  (C10_default_materialization ⟨[lstr "t.me"], []⟩ 5 (lstr "t.me") rfl).2.2 (by decide)

/-! ## Symbolic evaluation of `urlparse` on the recognised URL shapes -/

theorem wordChar_bne {c d : Char} (hc : isWordChar c = true)
    (hd : isWordChar d = false) : (c != d) = true := by
  rcases eq_or_ne c d with rfl | hne
  · rw [hc] at hd; exact absurd hd (by simp)
  · simpa using hne

theorem allWord_bne {id : Str} (h : ∀ c ∈ id, isWordChar c = true) {d : Char}
    (hd : isWordChar d = false) : ∀ c ∈ id, (c != d) = true :=
  fun c hc => wordChar_bne (h c hc) hd

theorem all_cons {p : Char → Bool} {a : Char} {b : Str} (ha : p a = true)
    (hb : ∀ c ∈ b, p c = true) : ∀ c ∈ a :: b, p c = true := by
  intro c hc
  rcases List.mem_cons.1 hc with rfl | h
  · exact ha
  · exact hb c h

theorem all_append {p : Char → Bool} {a b : Str} (ha : ∀ c ∈ a, p c = true)
    (hb : ∀ c ∈ b, p c = true) : ∀ c ∈ a ++ b, p c = true := by
  intro c hc
  rcases List.mem_append.1 hc with h | h
  · exact ha c h
  · exact hb c h

theorem all_reverse {p : Char → Bool} {a : Str} (ha : ∀ c ∈ a, p c = true) :
    ∀ c ∈ a.reverse, p c = true := by
  intro c hc
  exact ha c (by simpa using hc)

theorem hasChar_false {d : Char} {l : Str} (h : ∀ c ∈ l, (c != d) = true) :
    hasChar d l = false := by
  induction l with
  | nil => rfl
  | cons c rest ih =>
    have hc : (c == d) = false := by
      have := h c (by simp)
      simpa [bne] using this
    simp [hasChar, hc, ih (fun x hx => h x (by simp [hx]))]

theorem hasChar_true_of_mem {d : Char} {l : Str} (h : d ∈ l) :
    hasChar d l = true := by
  induction l with
  | nil => simp at h
  | cons c rest ih =>
    rcases List.mem_cons.1 h with rfl | hm
    · simp [hasChar]
    · simp [hasChar, ih hm]

theorem splitChar_no_sep {sep : Char} {l : Str} (h : ∀ c ∈ l, (c != sep) = true) :
    splitChar sep l = [l] := by
  induction l with
  | nil => rfl
  | cons c rest ih =>
    have hc : ¬ c = sep := by
      have := h c (by simp)
      simpa using this
    rw [splitChar, if_neg hc, ih (fun x hx => h x (by simp [hx]))]

theorem isPrefixOf_append_self (a b : Str) : a.isPrefixOf (a ++ b) = true := by
  rw [List.isPrefixOf_iff_prefix]
  exact List.prefix_append a b

theorem pySplitAux_no_sep {d : Char} {s' : Str} {l acc : Str} {fuel : Nat}
    (hf : l.length ≤ fuel) (h : ∀ c ∈ l, (c != d) = true) :
    pySplitAux (d :: s') fuel l acc = [acc.reverse ++ l] := by
  induction l generalizing fuel acc with
  | nil => cases fuel <;> simp [pySplitAux]
  | cons c rest ih =>
    cases fuel with
    | zero => simp at hf
    | succ f =>
      have hc : (d == c) = false := by
        have hcd : ¬ c = d := by simpa using h c (by simp)
        exact beq_eq_false_iff_ne.2 (fun hh => hcd hh.symm)
      have hne : ¬ ((d :: s').isPrefixOf (c :: rest) = true) := by
        simp [List.isPrefixOf, hc]
      rw [pySplitAux, if_neg hne,
        ih (by simpa using Nat.le_of_succ_le_succ hf) (fun x hx => h x (by simp [hx]))]
      simp

theorem splitScheme_https (rest : Str) :
    splitScheme (lstr "https" ++ ':' :: rest) = (lstr "https", rest) := by
  have hall : ∀ c ∈ lstr "https", ((fun c => c != ':') c) = true := by decide
  have hdrop : (lstr "https" ++ ':' :: rest).dropWhile (fun c => c != ':') = ':' :: rest := by
    rw [dropWhile_append_all _ hall]
    simp [List.dropWhile_cons]
  have htake : (lstr "https" ++ ':' :: rest).takeWhile (fun c => c != ':') = 'h' :: lstr "ttps" := by
    rw [takeWhile_append_all _ hall]
    simp only [List.takeWhile_cons, bne_self_eq_false, Bool.false_eq_true, if_false,
      List.append_nil]
    decide
  unfold splitScheme
  rw [hdrop, htake]
  dsimp only
  rw [if_pos (by decide : ('h'.isAlpha && (('h' :: lstr "ttps").all isSchemeChar)) = true)]
  rw [show pyLower ('h' :: lstr "ttps") = lstr "https" from by decide]

theorem urlparse_https (netloc rest : Str)
    (hn : ∀ c ∈ netloc, ((fun c => c != '/' && c != '?' && c != '#') c) = true) :
    urlparse (lstr "https" ++ ':' :: '/' :: '/' :: (netloc ++ '/' :: rest)) =
      ⟨lstr "https", netloc,
       (splitParams (splitQuery (splitHash ('/' :: rest)).1).1).1,
       (splitParams (splitQuery (splitHash ('/' :: rest)).1).1).2,
       (splitQuery (splitHash ('/' :: rest)).1).2,
       (splitHash ('/' :: rest)).2⟩ := by
  have hnet : splitNetloc ('/' :: '/' :: (netloc ++ '/' :: rest)) = (netloc, '/' :: rest) := by
    simp only [splitNetloc]
    rw [takeWhile_append_all _ hn, dropWhile_append_all _ hn]
    simp [List.takeWhile_cons, List.dropWhile_cons]
  simp only [urlparse, splitScheme_https, hnet]

theorem splitHash_no_hash {u : Str} (h : ∀ c ∈ u, ((fun c => c != '#') c) = true) :
    splitHash u = (u, []) := by
  unfold splitHash
  rw [takeWhile_all h, dropWhile_all h]
  rfl

theorem splitQuery_no_query {u : Str} (h : ∀ c ∈ u, ((fun c => c != '?') c) = true) :
    splitQuery u = (u, []) := by
  unfold splitQuery
  rw [takeWhile_all h, dropWhile_all h]
  rfl

theorem splitQuery_split (a b : Str) (h : ∀ c ∈ a, ((fun c => c != '?') c) = true) :
    splitQuery (a ++ '?' :: b) = (a, b) := by
  unfold splitQuery
  rw [takeWhile_append_all _ h, dropWhile_append_all _ h]
  simp [List.takeWhile_cons, List.dropWhile_cons, tailAfter]

theorem splitParams_noparams (p seg pre : Str)
    (hp : p.reverse = seg.reverse ++ '/' :: pre)
    (hseg : ∀ c ∈ seg, ((fun c => c != ';') c) = true)
    (hsl : ∀ c ∈ seg, ((fun c => c != '/') c) = true) :
    splitParams p = (p, []) := by
  have hmem : '/' ∈ p := by
    have h1 : '/' ∈ p.reverse := by rw [hp]; simp
    simpa using h1
  have hslash : hasChar '/' p = true := hasChar_true_of_mem hmem
  have htw : p.reverse.takeWhile (fun c => c != '/') = seg.reverse := by
    rw [hp, takeWhile_append_all _ (all_reverse hsl)]
    simp [List.takeWhile_cons]
  have hsegv : hasChar ';' ((p.reverse.takeWhile (fun c => c != '/')).reverse) = false := by
    rw [htw, List.reverse_reverse]
    exact hasChar_false hseg
  unfold splitParams
  rw [if_pos hslash]
  dsimp only
  rw [if_neg (by simp [hsegv])]

theorem pySplit_embed (id : Str) (h : ∀ c ∈ id, (c != '/') = true) :
    pySplit (lstr "/embed/") (lstr "/embed/" ++ id) = [[], id] := by
  have hform : lstr "/embed/" ++ id = '/' :: (lstr "embed/" ++ id) := rfl
  have hlen : (lstr "/embed/" ++ id).length = id.length + 7 := by
    rw [List.length_append, show (lstr "/embed/").length = 7 from rfl]
    omega
  have hpre : (lstr "/embed/").isPrefixOf ('/' :: (lstr "embed/" ++ id)) = true := by
    rw [← hform]
    exact isPrefixOf_append_self _ _
  unfold pySplit
  rw [hlen, hform]
  simp only [pySplitAux, hpre, if_true]
  rw [show (lstr "/embed/").length - 1 = (lstr "embed/").length from rfl, List.drop_left]
  rw [show lstr "/embed/" = '/' :: lstr "embed/" from rfl]
  rw [pySplitAux_no_sep (by omega) h]
  simp

theorem pySplit_v (id : Str) (h : ∀ c ∈ id, (c != '/') = true) :
    pySplit (lstr "/v/") (lstr "/v/" ++ id) = [[], id] := by
  have hform : lstr "/v/" ++ id = '/' :: (lstr "v/" ++ id) := rfl
  have hlen : (lstr "/v/" ++ id).length = id.length + 3 := by
    rw [List.length_append, show (lstr "/v/").length = 3 from rfl]
    omega
  have hpre : (lstr "/v/").isPrefixOf ('/' :: (lstr "v/" ++ id)) = true := by
    rw [← hform]
    exact isPrefixOf_append_self _ _
  unfold pySplit
  rw [hlen, hform]
  simp only [pySplitAux, hpre, if_true]
  rw [show (lstr "/v/").length - 1 = (lstr "v/").length from rfl, List.drop_left]
  rw [show lstr "/v/" = '/' :: lstr "v/" from rfl]
  rw [pySplitAux_no_sep (by omega) h]
  simp

theorem extract_youtube_short (id : Str) (hw : ∀ c ∈ id, isWordChar c = true) :
    extract_video_id (lstr "https://youtu.be/" ++ id) = some id := by
  have hform : lstr "https://youtu.be/" ++ id =
      lstr "https" ++ ':' :: '/' :: '/' :: (lstr "youtu.be" ++ '/' :: id) := by
    rw [show lstr "https://youtu.be/" =
      lstr "https" ++ ':' :: '/' :: '/' :: (lstr "youtu.be" ++ ['/']) from by decide]
    simp
  have hu := urlparse_https (lstr "youtu.be") id (by decide)
  have hH : splitHash ('/' :: id) = ('/' :: id, []) :=
    splitHash_no_hash (all_cons (by decide) (allWord_bne hw (by decide)))
  have hQ : splitQuery ('/' :: id) = ('/' :: id, []) :=
    splitQuery_no_query (all_cons (by decide) (allWord_bne hw (by decide)))
  have hP : splitParams ('/' :: id) = ('/' :: id, []) := by
    refine splitParams_noparams _ id [] ?_ (allWord_bne hw (by decide))
      (allWord_bne hw (by decide))
    simp
  have hurl : urlparse (lstr "https://youtu.be/" ++ id) =
      ⟨lstr "https", lstr "youtu.be", '/' :: id, [], [], []⟩ := by
    rw [hform, hu]
    simp only [hH, hQ, hP]
  have hhost : hostname ⟨lstr "https", lstr "youtu.be", '/' :: id, [], [], []⟩ =
      some (lstr "youtu.be") := rfl
  simp only [extract_video_id, hurl, hhost]
  rw [if_neg (show ¬ (lstr "youtu.be" ∈ ytHosts) from by decide)]
  rw [if_pos trivial]
  rw [show (('/' :: id : Str).drop 1) = id from rfl]
  rw [takeWhile_all (allWord_bne hw (by decide))]

theorem extract_watch (id : Str) (hne : id ≠ []) (hw : ∀ c ∈ id, isWordChar c = true) :
    extract_video_id (lstr "https://www.youtube.com/watch?v=" ++ id) = some id := by
  have hform : lstr "https://www.youtube.com/watch?v=" ++ id =
      lstr "https" ++ ':' :: '/' :: '/' :: (lstr "www.youtube.com" ++ '/' :: (lstr "watch" ++ '?' :: (lstr "v=" ++ id))) := by
    rw [show lstr "https://www.youtube.com/watch?v=" =
      lstr "https" ++ ':' :: '/' :: '/' :: (lstr "www.youtube.com" ++ '/' :: (lstr "watch" ++ '?' :: lstr "v=")) from by decide]
    simp
  have hu := urlparse_https (lstr "www.youtube.com") (lstr "watch" ++ '?' :: (lstr "v=" ++ id)) (by decide)
  have hH : splitHash ('/' :: (lstr "watch" ++ '?' :: (lstr "v=" ++ id))) =
      ('/' :: (lstr "watch" ++ '?' :: (lstr "v=" ++ id)), []) :=
    splitHash_no_hash (all_cons (by decide) (all_append (by decide)
      (all_cons (by decide) (all_append (by decide) (allWord_bne hw (by decide))))))
  have hQ : splitQuery ('/' :: (lstr "watch" ++ '?' :: (lstr "v=" ++ id))) =
      ('/' :: lstr "watch", lstr "v=" ++ id) := by
    rw [show ('/' : Char) :: (lstr "watch" ++ '?' :: (lstr "v=" ++ id)) =
      ('/' :: lstr "watch") ++ '?' :: (lstr "v=" ++ id) from by simp]
    exact splitQuery_split _ _ (by decide)
  have hP : splitParams ('/' :: lstr "watch") = (lstr "/watch", []) := by decide
  have hurl : urlparse (lstr "https://www.youtube.com/watch?v=" ++ id) =
      ⟨lstr "https", lstr "www.youtube.com", lstr "/watch", [], lstr "v=" ++ id, []⟩ := by
    rw [hform, hu]
    simp only [hH, hQ, hP]
  have hhost : hostname ⟨lstr "https", lstr "www.youtube.com", lstr "/watch", [], lstr "v=" ++ id, []⟩ =
      some (lstr "www.youtube.com") := rfl
  simp only [extract_video_id, hurl, hhost]
  rw [if_pos (show lstr "www.youtube.com" ∈ ytHosts from by decide)]
  rw [if_pos trivial]
  have hamp : ∀ c ∈ lstr "v=" ++ id, ((fun c => c != '&') c) = true :=
    all_append (by decide) (allWord_bne hw (by decide))
  rw [parse_qs_get_v, splitChar_no_sep hamp]
  rw [show lstr "v=" ++ id = 'v' :: '=' :: id from rfl]
  have hdw : ('v' :: '=' :: id).dropWhile (fun c => c != '=') = '=' :: id := by
    rw [List.dropWhile_cons, if_pos (by decide : (('v' : Char) != '=') = true),
        List.dropWhile_cons, if_neg (by decide : ¬ ((('=' : Char) != '=') = true))]
  have htw2 : ('v' :: '=' :: id).takeWhile (fun c => c != '=') = lstr "v" := by
    rw [List.takeWhile_cons, if_pos (by decide : (('v' : Char) != '=') = true),
        List.takeWhile_cons, if_neg (by decide : ¬ ((('=' : Char) != '=') = true))]
    rfl
  simp only [qsFirstV, hdw, htw2]
  rw [if_pos ⟨trivial, hne⟩]

theorem extract_embed (id : Str) (hw : ∀ c ∈ id, isWordChar c = true) :
    extract_video_id (lstr "https://www.youtube.com/embed/" ++ id) = some id := by
  have hform : lstr "https://www.youtube.com/embed/" ++ id =
      lstr "https" ++ ':' :: '/' :: '/' :: (lstr "www.youtube.com" ++ '/' :: (lstr "embed/" ++ id)) := by
    rw [show lstr "https://www.youtube.com/embed/" =
      lstr "https" ++ ':' :: '/' :: '/' :: (lstr "www.youtube.com" ++ '/' :: lstr "embed/") from by decide]
    simp
  have hu := urlparse_https (lstr "www.youtube.com") (lstr "embed/" ++ id) (by decide)
  have hH : splitHash ('/' :: (lstr "embed/" ++ id)) = ('/' :: (lstr "embed/" ++ id), []) :=
    splitHash_no_hash (all_cons (by decide) (all_append (by decide) (allWord_bne hw (by decide))))
  have hQ : splitQuery ('/' :: (lstr "embed/" ++ id)) = ('/' :: (lstr "embed/" ++ id), []) :=
    splitQuery_no_query (all_cons (by decide) (all_append (by decide) (allWord_bne hw (by decide))))
  have hP : splitParams ('/' :: (lstr "embed/" ++ id)) = ('/' :: (lstr "embed/" ++ id), []) := by
    refine splitParams_noparams _ id (lstr "debme" ++ ['/']) ?_
      (allWord_bne hw (by decide)) (allWord_bne hw (by decide))
    rw [List.reverse_cons, List.reverse_append,
      show (lstr "embed/").reverse = '/' :: lstr "debme" from by decide]
    simp
  have hurl : urlparse (lstr "https://www.youtube.com/embed/" ++ id) =
      ⟨lstr "https", lstr "www.youtube.com", '/' :: (lstr "embed/" ++ id), [], [], []⟩ := by
    rw [hform, hu]
    simp only [hH, hQ, hP]
  have hhost : hostname ⟨lstr "https", lstr "www.youtube.com", '/' :: (lstr "embed/" ++ id), [], [], []⟩ =
      some (lstr "www.youtube.com") := rfl
  simp only [extract_video_id, hurl, hhost]
  rw [if_pos (show lstr "www.youtube.com" ∈ ytHosts from by decide)]
  have hpath1 : ¬ ('/' :: (lstr "embed/" ++ id) = lstr "/watch") := by
    intro hcontra
    have hlen := congrArg List.length hcontra
    rw [List.length_cons, List.length_append,
      show (lstr "embed/").length = 6 from rfl,
      show (lstr "/watch").length = 6 from rfl] at hlen
    omega
  rw [if_neg hpath1]
  have hpre : (lstr "/embed/").isPrefixOf ('/' :: (lstr "embed/" ++ id)) = true := by
    rw [show ('/' : Char) :: (lstr "embed/" ++ id) = lstr "/embed/" ++ id from rfl]
    exact isPrefixOf_append_self _ _
  rw [if_pos hpre]
  rw [show ('/' : Char) :: (lstr "embed/" ++ id) = lstr "/embed/" ++ id from rfl]
  rw [pySplit_embed id (allWord_bne hw (by decide))]
  rw [show ([[], id] : List Str).getLastD [] = id from rfl]
  rw [takeWhile_all (allWord_bne hw (by decide))]

theorem extract_v (id : Str) (hw : ∀ c ∈ id, isWordChar c = true) :
    extract_video_id (lstr "https://www.youtube.com/v/" ++ id) = some id := by
  have hform : lstr "https://www.youtube.com/v/" ++ id =
      lstr "https" ++ ':' :: '/' :: '/' :: (lstr "www.youtube.com" ++ '/' :: (lstr "v/" ++ id)) := by
    rw [show lstr "https://www.youtube.com/v/" =
      lstr "https" ++ ':' :: '/' :: '/' :: (lstr "www.youtube.com" ++ '/' :: lstr "v/") from by decide]
    simp
  have hu := urlparse_https (lstr "www.youtube.com") (lstr "v/" ++ id) (by decide)
  have hH : splitHash ('/' :: (lstr "v/" ++ id)) = ('/' :: (lstr "v/" ++ id), []) :=
    splitHash_no_hash (all_cons (by decide) (all_append (by decide) (allWord_bne hw (by decide))))
  have hQ : splitQuery ('/' :: (lstr "v/" ++ id)) = ('/' :: (lstr "v/" ++ id), []) :=
    splitQuery_no_query (all_cons (by decide) (all_append (by decide) (allWord_bne hw (by decide))))
  have hP : splitParams ('/' :: (lstr "v/" ++ id)) = ('/' :: (lstr "v/" ++ id), []) := by
    refine splitParams_noparams _ id (lstr "v" ++ ['/']) ?_
      (allWord_bne hw (by decide)) (allWord_bne hw (by decide))
    rw [List.reverse_cons, List.reverse_append,
      show (lstr "v/").reverse = '/' :: lstr "v" from by decide]
    simp
  have hurl : urlparse (lstr "https://www.youtube.com/v/" ++ id) =
      ⟨lstr "https", lstr "www.youtube.com", '/' :: (lstr "v/" ++ id), [], [], []⟩ := by
    rw [hform, hu]
    simp only [hH, hQ, hP]
  have hhost : hostname ⟨lstr "https", lstr "www.youtube.com", '/' :: (lstr "v/" ++ id), [], [], []⟩ =
      some (lstr "www.youtube.com") := rfl
  simp only [extract_video_id, hurl, hhost]
  rw [if_pos (show lstr "www.youtube.com" ∈ ytHosts from by decide)]
  have hpath1 : ¬ ('/' :: (lstr "v/" ++ id) = lstr "/watch") := by
    intro hcontra
    rw [show ('/' : Char) :: (lstr "v/" ++ id) = '/' :: 'v' :: '/' :: id from rfl,
        show lstr "/watch" = '/' :: 'w' :: lstr "atch" from rfl] at hcontra
    injection hcontra with h1 h2
    injection h2 with h3 h4
    exact absurd h3 (by decide)
  rw [if_neg hpath1]
  have hpre1 : (lstr "/embed/").isPrefixOf ('/' :: (lstr "v/" ++ id)) = false := by
    rw [show lstr "/embed/" = '/' :: 'e' :: lstr "mbed/" from rfl,
        show ('/' : Char) :: (lstr "v/" ++ id) = '/' :: 'v' :: '/' :: id from rfl]
    simp [List.isPrefixOf, show (('e' : Char) == 'v') = false from by decide]
  rw [if_neg (by rw [hpre1]; exact Bool.false_ne_true)]
  have hpre2 : (lstr "/v/").isPrefixOf ('/' :: (lstr "v/" ++ id)) = true := by
    rw [show ('/' : Char) :: (lstr "v/" ++ id) = lstr "/v/" ++ id from rfl]
    exact isPrefixOf_append_self _ _
  rw [if_pos hpre2]
  rw [show ('/' : Char) :: (lstr "v/" ++ id) = lstr "/v/" ++ id from rfl]
  rw [pySplit_v id (allWord_bne hw (by decide))]
  rw [show ([[], id] : List Str).getLastD [] = id from rfl]
  rw [takeWhile_all (allWord_bne hw (by decide))]

/-- Claim C2: for every word-character identifier, the four recognised URL
shapes all resolve to that same identifier, and the two spec examples
resolve as stated. -/
theorem C2_resolve_same_identifier :
    (∀ id : Str, id ≠ [] → (∀ c ∈ id, isWordChar c = true) →
      extract_video_id (lstr "https://www.youtube.com/watch?v=" ++ id) = some id ∧
      extract_video_id (lstr "https://www.youtube.com/embed/" ++ id) = some id ∧
      extract_video_id (lstr "https://www.youtube.com/v/" ++ id) = some id ∧
      extract_video_id (lstr "https://youtu.be/" ++ id) = some id) ∧
    extract_video_id (lstr "https://youtu.be/dQw4w9WgXcQ") = some (lstr "dQw4w9WgXcQ") ∧
    extract_video_id (lstr "https://www.youtube.com/embed/abc123?x=1") = some (lstr "abc123") := by
  refine ⟨fun id hne hw => ⟨extract_watch id hne hw, extract_embed id hw,
    extract_v id hw, extract_youtube_short id hw⟩, by decide, by decide⟩

/-- Witness for C2: the four shapes around the concrete identifier
`dQw4w9WgXcQ` all resolve to it. -/
theorem C2_witness :
    extract_video_id (lstr "https://www.youtube.com/watch?v=" ++ lstr "dQw4w9WgXcQ") =
      some (lstr "dQw4w9WgXcQ") ∧
    extract_video_id (lstr "https://youtu.be/" ++ lstr "dQw4w9WgXcQ") =
      some (lstr "dQw4w9WgXcQ") := by
  have h := C2_resolve_same_identifier.1 (lstr "dQw4w9WgXcQ") (by decide) (by decide)
  exact ⟨h.1, h.2.2.2⟩

/-- Counterexample for C5: a `youtu.be` URL with an empty path yields the
empty string, not the `None` marker the claim requires. -/
theorem C5_counterexample :
    extract_video_id (lstr "https://youtu.be/") = some [] ∧
    extract_video_id (lstr "https://youtu.be/") ≠ none := by
  refine ⟨by decide, by decide⟩

/-- Amended claim C5: an unrecognised hostname (or none at all) yields
`none`; a recognised youtube hostname whose path is none of `/watch`,
`/embed/...`, `/v/...` yields `none`; but a `youtu.be` URL with an empty
path yields the empty string (falsy, rejected by the caller), not `none`. -/
theorem C5_invalid_format :
    (∀ url : Str, hostname (urlparse url) = none → extract_video_id url = none) ∧
    (∀ (url : Str) (h : Str), hostname (urlparse url) = some h →
      h ∉ ytHosts → h ≠ lstr "youtu.be" → extract_video_id url = none) ∧
    (∀ (url : Str) (h : Str), hostname (urlparse url) = some h → h ∈ ytHosts →
      (urlparse url).path ≠ lstr "/watch" →
      (lstr "/embed/").isPrefixOf (urlparse url).path = false →
      (lstr "/v/").isPrefixOf (urlparse url).path = false →
      extract_video_id url = none) ∧
    extract_video_id (lstr "https://youtu.be/") = some [] ∧
    extract_video_id (lstr "https://youtu.be") = some [] := by
  refine ⟨fun url h => ?_, fun url h hh h1 h2 => ?_, fun url h hh h1 h2 h3 h4 => ?_,
    by decide, by decide⟩
  · simp only [extract_video_id, h]
  · simp only [extract_video_id, hh]
    rw [if_neg h1, if_neg h2]
  · simp only [extract_video_id, hh]
    rw [if_pos h1, if_neg h2, if_neg (by rw [h3]; exact Bool.false_ne_true),
      if_neg (by rw [h4]; exact Bool.false_ne_true)]

/-- Witness for C5: a string with no hostname resolves to `none`. -/
theorem C5_witness : extract_video_id (lstr "not a url") = none :=
  C5_invalid_format.1 (lstr "not a url") (by decide)

/-- Claim C6 evaluation: the call-site pattern accepts the scheme-less URL
`youtube.com/watch?v=dQw4w9WgXcQ`, yet `extract_video_id` rejects it with
`none`, while the same URL with scheme and `www.` resolves. -/
theorem C6_missing_scheme_divergence :
    ytSearch (lstr "youtube.com/watch?v=dQw4w9WgXcQ") = true ∧
    extract_video_id (lstr "youtube.com/watch?v=dQw4w9WgXcQ") = none ∧
    extract_video_id (lstr "https://www.youtube.com/watch?v=dQw4w9WgXcQ") =
      some (lstr "dQw4w9WgXcQ") := by
  refine ⟨by decide, by decide, by decide⟩

/-- Witness for C4: the single cleaned match of a one-link text is in the
output. -/
theorem C4_witness :
    lstr "https://a.com" ∈ extract_https_links (lstr "https://a.com") :=
  (C4_extract_links_invariants.1 (lstr "https://a.com")).2.2.2.2
    (lstr "https://a.com") (by decide) (by decide)
